import Mathlib

/-!
Verification of the event-coordination core of GalleryPy (src/main.py):
the finite-state-machine engine, the debounced serial task queue and the
dependency manager, together with the concrete state tables wired up in
App.__init__ and the Alt-key menu toggle handler.

Python dictionaries are embedded as association lists with Python's
update-in-place / append-at-end semantics (dictSet) and .get lookup
(dictGet); Python sets are embedded as Finset String; optional values are
Option; an exception that escapes a function is an Except.error carrying
the state at the moment of the raise.
-/

/-- Lookup in an association list, mirroring Python dict indexing / .get:
the first binding for the key wins (keys are unique under dictSet). -/
def dictGet {κ α : Type} [DecidableEq κ] : List (κ × α) → κ → Option α
  | [], _ => none
  | (k, v) :: rest, key => if key = k then some v else dictGet rest key

/-- Update in an association list, mirroring Python dict assignment:
an existing key is overwritten in place, a new key is appended at the end. -/
def dictSet {κ α : Type} [DecidableEq κ] : List (κ × α) → κ → α → List (κ × α)
  | [], key, v => [(key, v)]
  | (k, w) :: rest, key, v =>
    if key = k then (key, v) :: rest else (k, w) :: dictSet rest key v

/-- State of FiniteStateMachine (src/main.py lines 250-254): current state,
previous state (None until the first successful transition) and the
transition table.  The state_actions dictionary of the source stores
arbitrary callables that close over the whole application object; it is
embedded as the explicit action environment passed to change_state below. -/
structure FiniteStateMachine where
  current_state : Option String
  previous_state : Option String
  transitions : List (String × List String)
deriving Repr, DecidableEq

/-- FiniteStateMachine.__init__(initial_state): previous state None,
empty transition table. -/
def FiniteStateMachine.init (initial_state : Option String) : FiniteStateMachine :=
  { current_state := initial_state, previous_state := none, transitions := [] }

/-- FiniteStateMachine.get_state. -/
def FiniteStateMachine.get_state (m : FiniteStateMachine) : Option String :=
  m.current_state

/-- FiniteStateMachine.get_previous_state. -/
def FiniteStateMachine.get_previous_state (m : FiniteStateMachine) : Option String :=
  m.previous_state

/-- FiniteStateMachine.add_state(state, transitions=None, action=None)
(src/main.py lines 264-267): unconditionally stores the target list
(where the Python expression transitions-or-[] turns None into []).  The
body performs no validation of any kind and has no raise statement.  The
companion assignment to state_actions is represented by the action
environment of change_state. -/
def FiniteStateMachine.add_state (m : FiniteStateMachine) (state : String)
    (transitions : Option (List String)) : FiniteStateMachine :=
  { m with transitions := dictSet m.transitions state (transitions.getD []) }

/-- FiniteStateMachine.set_state(state) (src/main.py lines 269-274): raises
ValueError when the state is not a key of the transition table, otherwise
sets the current state. -/
def FiniteStateMachine.set_state (m : FiniteStateMachine) (state : String) :
    Except String FiniteStateMachine :=
  if (dictGet m.transitions state).isSome then
    Except.ok { m with current_state := some state }
  else
    Except.error ("State " ++ state ++ " is not defined in the FSM.")

/-- FiniteStateMachine.add_transition(from_state, to_state) (src/main.py
lines 276-281): raises ValueError when from_state is not a key, otherwise
appends to_state to its target list. -/
def FiniteStateMachine.add_transition (m : FiniteStateMachine)
    (from_state to_state : String) : Except String FiniteStateMachine :=
  match dictGet m.transitions from_state with
  | none => Except.error ("State " ++ from_state ++ " is not defined in the FSM.")
  | some ts =>
    Except.ok { m with transitions := dictSet m.transitions from_state (ts ++ [to_state]) }

/-- Action environment: the contents of the state_actions dictionary.  A
Python entry action is a callable action(new_state, prev_state) closing
over the application; in the embedding it receives the machine it may
mutate explicitly and returns the machine it leaves behind. -/
abbrev ActEnv :=
  String → Option (String → String → FiniteStateMachine → FiniteStateMachine)

/-- The expression self.transitions.get(self.current_state, []) used by
change_state: the allowed targets of the current state, empty when the
current state is None or has no entry in the table. -/
def FiniteStateMachine.allowed_targets (m : FiniteStateMachine) : List String :=
  match m.current_state with
  | none => []
  | some cur => (dictGet m.transitions cur).getD []

/-- FiniteStateMachine.change_state(new_state) (src/main.py lines 283-297).
If the target is not in transitions.get(current, []) the call prints an
invalid-transition message and returns early (Bool component false);
otherwise previous := current, current := new_state are assigned first and
only then the entry action registered for the target, if any, is invoked
with (new_state, prev_state) on the already-updated machine (Bool
component true).  The function body contains no raise statement. -/
def FiniteStateMachine.change_state (acts : ActEnv) (m : FiniteStateMachine)
    (new_state : String) : FiniteStateMachine × Bool :=
  match m.current_state with
  | none => (m, false)
  | some cur =>
    if new_state ∈ (dictGet m.transitions cur).getD [] then
      let m1 : FiniteStateMachine :=
        { m with current_state := some new_state, previous_state := some cur }
      match acts new_state with
      | some a => (a new_state cur m1, true)
      | none => (m1, true)
    else
      (m, false)

/-- Whether the current state has an entry in the transition table (it does
not when the current state is None, as in FiniteStateMachine(None), or was
never registered through add_state). -/
def FiniteStateMachine.has_current_entry (m : FiniteStateMachine) : Bool :=
  match m.current_state with
  | none => false
  | some cur => (dictGet m.transitions cur).isSome

/-- The window_fsm transition table registered in App.__init__
(src/main.py lines 348-353). -/
def window_fsm_setup : FiniteStateMachine :=
  (((((((FiniteStateMachine.init (some "__init__")).add_state "__init__"
    (some ["restored", "resized", "maximized", "minimized", "fullscreen"])).add_state
    "restored" (some ["resized", "maximized", "minimized", "fullscreen"])).add_state
    "resized" (some ["restored", "maximized", "minimized", "fullscreen"])).add_state
    "maximized" (some ["restored", "fullscreen"])).add_state
    "minimized" (some ["restored"])).add_state
    "fullscreen" (some ["restored", "maximized"]))

/-- The window-state entry actions (on_normal_state, on_maximized_state,
on_minimized_state, on_fullscreen_state, src/main.py lines 1250-1262) only
perform layout work (handle_all_items_on_resize and a delayed repeat); none
of them calls change_state or set_state on the window machine, so on the
window machine state they are the identity. -/
def window_acts : ActEnv :=
  fun _ => some (fun _ _ m => m)

/-- The page_fsm transition table registered in App.__init__
(src/main.py lines 355-359). -/
def page_fsm_setup : FiniteStateMachine :=
  (((((FiniteStateMachine.init (some "__init__")).add_state "__init__"
    (some ["home", "img", "img_error", "dirs_files"])).add_state
    "home" (some ["img", "img_error", "dirs_files"])).add_state
    "img" (some ["home", "img_error", "dirs_files"])).add_state
    "img_error" (some ["home", "img", "dirs_files"])).add_state
    "dirs_files" (some ["home", "img", "img_error"])

/-- The menu_status_fsm transition table registered in App.__init__
(src/main.py lines 365-367). -/
def menu_status_fsm_setup : FiniteStateMachine :=
  ((FiniteStateMachine.init (some "__init__")).add_state "__init__"
    (some ["hidden", "shown"])).add_state "hidden" (some ["shown"])
    |>.add_state "shown" (some ["hidden"])

/-- The menu-status entry actions (on_menu_status_hidden_state and
on_menu_status_shown_state, src/main.py lines 1272-1282) hide or show the
menubar and the status strip; they read page_fsm but never call
change_state on any machine, so on the machine state they are the
identity. -/
def menu_status_acts : ActEnv :=
  fun _ => some (fun _ _ m => m)

/-- The three machine states read and written by App.on_alt_keypress. -/
structure AppFSMs where
  window_fsm : FiniteStateMachine
  page_fsm : FiniteStateMachine
  menu_status_fsm : FiniteStateMachine
deriving Repr, DecidableEq

/-- App.on_alt_keypress(event) (src/main.py lines 1218-1224): when the
window machine is in fullscreen and the page machine is on the img page,
toggle the menu-status machine between shown and hidden. -/
def on_alt_keypress (app : AppFSMs) : AppFSMs :=
  if app.window_fsm.get_state = some "fullscreen" then
    if app.page_fsm.get_state = some "img" then
      if app.menu_status_fsm.get_state = some "shown" then
        { app with
          menu_status_fsm := (app.menu_status_fsm.change_state menu_status_acts "hidden").1 }
      else
        { app with
          menu_status_fsm := (app.menu_status_fsm.change_state menu_status_acts "shown").1 }
    else
      app
  else
    app

/-- A machine that has already been used: two declared states and one
successfully performed transition (change_state from a to b). -/
def used_machine : FiniteStateMachine :=
  ((((FiniteStateMachine.init (some "a")).add_state "a" (some ["b"])).add_state
    "b" (some ["a"])).change_state (fun _ => none) "b").1

/-- The menu-status machine with the table registered in App.__init__ and
the given current and previous states. -/
def mk_menu_fsm (cur : String) (prev : Option String) : FiniteStateMachine :=
  { menu_status_fsm_setup with current_state := some cur, previous_state := prev }

/-- Per-follow-up record stored in DependencyManager.dependency_states
(src/main.py lines 196-201): the required name set and the completed
subset.  Python sets are embedded as Finset String, so the equality test
of mark_complete is genuine set equality, as in the source. -/
structure DependencyState where
  dependencies : Finset String
  completed : Finset String
deriving DecidableEq

/-- DependencyManager (src/main.py lines 192-194): the dependency_states
dictionary.  The source keys it by the follow-up callable object; the
embedding keys it by an opaque identifier and records an invocation of a
follow-up as its identifier instead of executing a closure. -/
structure DependencyManager where
  dependency_states : List (Nat × DependencyState)
deriving DecidableEq

/-- DependencyManager.add_dependencies(follow_up_func, dependencies)
(src/main.py lines 196-201): stores the required set together with a fresh
empty completed set, overwriting any prior registration. -/
def DependencyManager.add_dependencies (dm : DependencyManager) (f : Nat)
    (dependencies : List String) : DependencyManager :=
  ⟨dictSet dm.dependency_states f ⟨dependencies.toFinset, ∅⟩⟩

/-- Effect of one iteration of the mark_complete loop (src/main.py lines
205-214) on the dictionary value of one follow-up: when the name is one of
its dependencies it is added to the completed set, and when completed then
equals dependencies the completed set is cleared (the branch in which the
follow-up is also invoked). -/
def mark_step (func_name : String) (st : DependencyState) : DependencyState :=
  if func_name ∈ st.dependencies then
    if st.dependencies = insert func_name st.completed then
      { st with completed := ∅ }
    else
      { st with completed := insert func_name st.completed }
  else
    st

/-- Whether one iteration of the mark_complete loop invokes its follow-up:
the name is a dependency and adding it makes completed equal
dependencies. -/
def mark_fires (func_name : String) (st : DependencyState) : Bool :=
  decide (func_name ∈ st.dependencies) &&
    decide (st.dependencies = insert func_name st.completed)

/-- DependencyManager.mark_complete(func_name) (src/main.py lines 203-214):
iterate over all registered follow-ups in dictionary order; for every one
whose required set contains the name, add the name to its completed set;
when completed now equals required, invoke the follow-up synchronously
(its identifier is appended to the returned list, in iteration order) and
clear its completed set. -/
def DependencyManager.mark_complete (dm : DependencyManager) (func_name : String) :
    DependencyManager × List Nat :=
  (⟨dm.dependency_states.map (fun e => (e.1, mark_step func_name e.2))⟩,
   (dm.dependency_states.filter (fun e => mark_fires func_name e.2)).map (fun e => e.1))

/-- Repeated mark_complete calls with the fired follow-ups accumulated in
order: the harness view of completion cycles. -/
def DependencyManager.run_marks (dm : DependencyManager) :
    List String → DependencyManager × List Nat
  | [] => (dm, [])
  | n :: rest =>
    let r1 := dm.mark_complete n
    let r2 := r1.1.run_marks rest
    (r2.1, r1.2 ++ r2.2)

/-- State of the TaskQueue machinery (src/main.py lines 82-142) as it is
observable between event-loop callbacks: the per-key FIFO queues
(task_queues, list head = front of the Queue), the per-key running flags
(running_tasks) and the keys for which a root.after(10, finish_task)
settle callback is currently registered.  Tasks are opaque identifiers;
whether a task's thunk raises when called is supplied by an environment
predicate.  The root is the one installed through set_root during
init_app, so process_queue takes its root-is-present branch. -/
structure TaskQueue where
  task_queues : List (String × List Nat)
  running_tasks : List (String × Bool)
  finish_scheduled : List String
deriving Repr, DecidableEq

/-- TaskQueue.__init__: empty dictionaries. -/
def TaskQueue.empty : TaskQueue := ⟨[], [], []⟩

/-- TaskQueue.process_queue(func_name) (src/main.py lines 124-137).  When
the key is idle and has queued work: set the running flag, pop the head
task and call it.  The source wraps the task() call in no try/except, so
when the thunk raises the exception escapes process_queue right there
(Except.error carrying the state at the raise): the popped task is gone,
the running flag is left True and no finish_task callback has been
scheduled.  When the thunk returns normally, root.after(10, finish_task)
is registered (the settle delay) and the call returns. -/
def TaskQueue.process_queue (raises : Nat → Bool) (key : String) (s : TaskQueue) :
    Except TaskQueue TaskQueue :=
  if (dictGet s.running_tasks key).getD false = false ∧
      ((dictGet s.task_queues key).getD []) ≠ [] then
    match (dictGet s.task_queues key).getD [] with
    | [] => Except.ok s
    | t :: rest =>
      let s1 : TaskQueue :=
        { s with running_tasks := dictSet s.running_tasks key true,
                 task_queues := dictSet s.task_queues key rest }
      if raises t then Except.error s1
      else Except.ok { s1 with finish_scheduled := s1.finish_scheduled ++ [key] }
  else
    Except.ok s

/-- TaskQueue._add_task_to_queue(func_name, task) (src/main.py lines
115-122): create the queue and the running flag on first use, append the
task, then process the queue.  An exception raised by the executed thunk
propagates through this method unimpeded. -/
def TaskQueue.add_task_to_queue (raises : Nat → Bool) (key : String) (task : Nat)
    (s : TaskQueue) : Except TaskQueue TaskQueue :=
  let s0 : TaskQueue :=
    if (dictGet s.task_queues key).isNone then
      { s with task_queues := dictSet s.task_queues key [],
               running_tasks := dictSet s.running_tasks key false }
    else s
  let s1 : TaskQueue :=
    { s0 with task_queues :=
        dictSet s0.task_queues key (((dictGet s0.task_queues key).getD []) ++ [task]) }
  s1.process_queue raises key

/-- TaskQueue.finish_task(func_name) (src/main.py lines 139-142): clear the
running flag and process the next queued entry. -/
def TaskQueue.finish_task (raises : Nat → Bool) (key : String) (s : TaskQueue) :
    Except TaskQueue TaskQueue :=
  TaskQueue.process_queue raises key
    { s with running_tasks := dictSet s.running_tasks key false }

/-- Per-key view of the debounce branch of TaskQueue.enqueue_task
(src/main.py lines 104-111) together with the Tk timer it drives.  now is
the wall clock in milliseconds, pending is the one not-yet-fired
root.after callback registered in debounce_tasks for the key (its fire
time and the task it would append) and materialized records, in order,
the tasks actually handed to _add_task_to_queue by fired timers.
after_cancel on an id whose callback already fired is a harmless no-op in
Tk; the model mirrors this because a fired timer leaves pending empty, so
a later enqueue simply overwrites the stale registration. -/
structure DebounceSim where
  now : Nat
  pending : Option (Nat × Nat)
  materialized : List Nat
deriving Repr, DecidableEq

/-- A key that has never been enqueued on: clock zero, no timer, nothing
materialized. -/
def DebounceSim.origin : DebounceSim := ⟨0, none, []⟩

/-- Advance the clock to time t, delivering the pending timer callback
when its fire time has arrived: the callback appends its task to the
queue (materializes it). -/
def DebounceSim.fire_due (s : DebounceSim) (t : Nat) : DebounceSim :=
  match s.pending with
  | some (ft, task) =>
    if ft ≤ t then ⟨t, none, s.materialized ++ [task]⟩ else { s with now := t }
  | none => { s with now := t }

/-- enqueue_task(func_name, task, debounce=True, delay) running at the
current time: after_cancel the previously scheduled insertion (a no-op
when none is still pending) and register root.after(delay, add) for the
new task. -/
def DebounceSim.enqueue_debounced (s : DebounceSim) (delay task : Nat) : DebounceSim :=
  { s with pending := some (s.now + delay, task) }

/-- Process one timed enqueue event: timers due by the event time are
delivered first (the event loop runs them before the new notification),
then the enqueue handler runs. -/
def DebounceSim.step (delay : Nat) (s : DebounceSim) (ev : Nat × Nat) : DebounceSim :=
  (s.fire_due ev.1).enqueue_debounced delay ev.2

/-- Run a trace of timed enqueue events (time, task). -/
def DebounceSim.run (delay : Nat) (s : DebounceSim) (evs : List (Nat × Nat)) : DebounceSim :=
  evs.foldl (DebounceSim.step delay) s

/-- Quiescent end of a trace: the still-pending timer, if any, fires. -/
def DebounceSim.flush (s : DebounceSim) : DebounceSim :=
  match s.pending with
  | some (_, task) => { s with pending := none, materialized := s.materialized ++ [task] }
  | none => s

/-- Timed per-key view of _add_task_to_queue / process_queue / finish_task
(src/main.py lines 115-142) for thunks that return normally, running on
the single-threaded Tk event loop: queue is task_queues[key] (head
first), running is running_tasks[key], finish_at is the fire time of the
pending root.after(10, finish_task) settle callback, starts logs the pairs
(start time, task) of every task() invocation and fins the times at which
finish_task ran.  A task's execution occupies the wall-clock interval from
its start to start + dur task, and the settle callback is registered when
it returns, so it fires at start + dur task + 10. -/
structure SerialSim where
  now : Nat
  queue : List Nat
  running : Bool
  finish_at : Option Nat
  starts : List (Nat × Nat)
  fins : List Nat
deriving Repr, DecidableEq

/-- A key as _add_task_to_queue first creates it: empty queue, running
False, nothing scheduled, nothing logged. -/
def SerialSim.initState : SerialSim := ⟨0, [], false, none, [], []⟩

/-- process_queue (src/main.py lines 124-137) reached at wall-clock time
t, root present, thunks well-behaved: when idle and non-empty, set
running, pop the head task, run it to completion (the clock advances by
its duration) and register the settle callback 10 ms after it returns. -/
def SerialSim.process_queue (dur : Nat → Nat) (t : Nat) (s : SerialSim) : SerialSim :=
  if s.running then s
  else
    match s.queue with
    | [] => s
    | h :: rest =>
      { s with queue := rest, running := true,
               now := t + dur h,
               finish_at := some (t + dur h + 10),
               starts := s.starts ++ [(t, h)] }

/-- Deliver every settle callback due up to the horizon t: each
finish_task (src/main.py lines 139-142) clears the running flag and
processes the next entry, which may start another task whose own settle
callback can also come due before t.  The fuel bounds the cascade; each
delivery either starts a task, consuming a queue element, or ends the
chain. -/
def SerialSim.fire_finishes (dur : Nat → Nat) : Nat → Nat → SerialSim → SerialSim
  | 0, _, s => s
  | fuel + 1, t, s =>
    match s.finish_at with
    | none => s
    | some f =>
      if f ≤ t then
        SerialSim.fire_finishes dur fuel t
          (SerialSim.process_queue dur f
            { s with now := f, running := false, finish_at := none,
                     fins := s.fins ++ [f] })
      else s

/-- _add_task_to_queue(key, task) reached at wall-clock time t: the event
loop delivers the settle callbacks due by then first, then the handler
appends the task and runs process_queue.  The clock never moves backwards;
when a long task ran past t the handler runs as soon as control
returns. -/
def SerialSim.add_task (dur : Nat → Nat) (t task : Nat) (s : SerialSim) : SerialSim :=
  let s0 := SerialSim.fire_finishes dur (s.queue.length + 1) t s
  SerialSim.process_queue dur (max s0.now t)
    { s0 with now := max s0.now t, queue := s0.queue ++ [task] }

/-- Feed a trace of timed enqueue events (time, task) for one key. -/
def SerialSim.run_adds (dur : Nat → Nat) (s : SerialSim) (evs : List (Nat × Nat)) :
    SerialSim :=
  evs.foldl (fun st ev => st.add_task dur ev.1 ev.2) s

/-- Quiescent end of a trace: with no further events, every outstanding
settle callback fires and every still-queued task runs. -/
def SerialSim.drain (dur : Nat → Nat) : Nat → SerialSim → SerialSim
  | 0, s => s
  | fuel + 1, s =>
    match s.finish_at with
    | none => s
    | some f =>
      SerialSim.drain dur fuel
        (SerialSim.process_queue dur f
          { s with now := f, running := false, finish_at := none,
                   fins := s.fins ++ [f] })

/-- A whole observation: run the events from the untouched key state, then
let the loop go quiescent. -/
def SerialSim.run_trace (dur : Nat → Nat) (evs : List (Nat × Nat)) : SerialSim :=
  SerialSim.drain dur ((SerialSim.run_adds dur SerialSim.initState evs).queue.length + 1)
    (SerialSim.run_adds dur SerialSim.initState evs)

/-- Queue-model invariant between event-loop callbacks: the running flag
is set exactly while a settle callback is pending; successive task starts
are separated by at least the predecessor's duration plus the 10 ms
settle delay; a pending settle callback fires exactly 10 ms after the
last started task returned; once it has fired, the clock is past that
point; and an idle key has an empty queue. -/
structure SimInv (dur : Nat → Nat) (s : SerialSim) : Prop where
  run_iff : s.running = s.finish_at.isSome
  spaced : List.Chain' (fun a b => a.1 + dur a.2 + 10 ≤ b.1) s.starts
  fin_last : ∀ f, s.finish_at = some f →
    ∃ e, s.starts.getLast? = some e ∧ f = e.1 + dur e.2 + 10
  idle_now : s.finish_at = none →
    ∀ e, s.starts.getLast? = some e → e.1 + dur e.2 + 10 ≤ s.now
  idle_queue : s.running = false → s.queue = []

theorem dictGet_dictSet_self {κ α : Type} [DecidableEq κ] (d : List (κ × α)) (k : κ) (v : α) :
    dictGet (dictSet d k v) k = some v := by
  induction d with
  | nil => simp [dictSet, dictGet]
  | cons hd tl ih =>
    obtain ⟨k1, v1⟩ := hd
    by_cases h : k = k1 <;> simp [dictSet, dictGet, h, ih]

theorem change_state_not_allowed (acts : ActEnv) (m : FiniteStateMachine) (t : String)
    (ht : t ∉ m.allowed_targets) : m.change_state acts t = (m, false) := by
  unfold FiniteStateMachine.change_state
  cases h : m.current_state with
  | none => rfl
  | some cur =>
    have ht' : t ∉ (dictGet m.transitions cur).getD [] := by
      simpa [FiniteStateMachine.allowed_targets, h] using ht
    simp [ht']

theorem change_state_success_eq (acts : ActEnv) (m : FiniteStateMachine) (s t : String)
    (hcur : m.current_state = some s) (ht : t ∈ m.allowed_targets) :
    m.change_state acts t =
      ((match acts t with
        | some a => a t s ⟨some t, some s, m.transitions⟩
        | none => ⟨some t, some s, m.transitions⟩), true) := by
  have ht' : t ∈ (dictGet m.transitions s).getD [] := by
    simpa [FiniteStateMachine.allowed_targets, hcur] using ht
  unfold FiniteStateMachine.change_state
  rw [hcur]
  simp only [ht', if_pos]
  cases acts t <;> rfl

/-- C1: for every machine state and every target not in the allowed-target
list of the current state, change_state leaves the machine (current and
previous state included) unchanged and reports failure; the embedded
function is total, mirroring the source body, which only prints the
invalid-transition message and returns early, with no raise statement. -/
theorem change_state_rejects_disallowed (acts : ActEnv) (m : FiniteStateMachine) (t : String)
    (ht : t ∉ m.allowed_targets) :
    m.change_state acts t = (m, false) ∧
    (m.change_state acts t).1.get_state = m.get_state ∧
    (m.change_state acts t).1.get_previous_state = m.get_previous_state := by
  rw [change_state_not_allowed acts m t ht]
  exact ⟨rfl, rfl, rfl⟩

theorem change_state_rejects_disallowed_witness :
    ("maximized" ∉ ({ window_fsm_setup with current_state := some "minimized" } :
        FiniteStateMachine).allowed_targets) ∧
    ({ window_fsm_setup with current_state := some "minimized" } :
        FiniteStateMachine).change_state window_acts "maximized" =
      ({ window_fsm_setup with current_state := some "minimized" }, false) :=
  ⟨by decide, (change_state_rejects_disallowed window_acts
    { window_fsm_setup with current_state := some "minimized" } "maximized" (by decide)).1⟩

/-- C2: for every successful change_state from s to t, the Bool component
reports success, the machine is updated to current = t, previous = s
before the entry action runs, and the entry action for t, if any, is
invoked with arguments (t, s) on that already-updated machine; when t has
no entry action the final machine satisfies get_state = t and
get_previous_state = s. -/
theorem change_state_success_updates_before_action (acts : ActEnv)
    (m : FiniteStateMachine) (s t : String)
    (hcur : m.current_state = some s) (ht : t ∈ m.allowed_targets) :
    (m.change_state acts t).2 = true ∧
    (m.change_state acts t).1 =
      (match acts t with
       | some a => a t s ⟨some t, some s, m.transitions⟩
       | none => ⟨some t, some s, m.transitions⟩) ∧
    (FiniteStateMachine.get_state ⟨some t, some s, m.transitions⟩ = some t ∧
     FiniteStateMachine.get_previous_state ⟨some t, some s, m.transitions⟩ = some s) ∧
    (acts t = none →
      (m.change_state acts t).1.get_state = some t ∧
      (m.change_state acts t).1.get_previous_state = some s) := by
  rw [change_state_success_eq acts m s t hcur ht]
  refine ⟨rfl, rfl, ⟨rfl, rfl⟩, ?_⟩
  intro ha
  rw [ha]
  exact ⟨rfl, rfl⟩

theorem change_state_success_updates_before_action_witness :
    (({ window_fsm_setup with current_state := some "minimized" } :
        FiniteStateMachine).current_state = some "minimized") ∧
    ("restored" ∈ ({ window_fsm_setup with current_state := some "minimized" } :
        FiniteStateMachine).allowed_targets) ∧
    ((({ window_fsm_setup with current_state := some "minimized" } :
        FiniteStateMachine).change_state window_acts "restored").2 = true) :=
  ⟨rfl, by decide, (change_state_success_updates_before_action window_acts
    { window_fsm_setup with current_state := some "minimized" } "minimized" "restored"
    rfl (by decide)).1⟩

/-- C10: change_state is total over arbitrary machine configurations; when
the current state has no entry in the transition table (in particular when
the current state is None or was never registered through add_state) every
call is rejected, returning the machine unchanged with the failure flag,
and no exception arises (the embedded function is total). -/
theorem change_state_no_current_entry (acts : ActEnv) (m : FiniteStateMachine) (t : String)
    (h : m.has_current_entry = false) :
    m.change_state acts t = (m, false) := by
  apply change_state_not_allowed
  unfold FiniteStateMachine.has_current_entry at h
  unfold FiniteStateMachine.allowed_targets
  cases hc : m.current_state with
  | none => simp
  | some cur =>
    rw [hc] at h
    simp only [] at h
    cases hd : dictGet m.transitions cur with
    | none => simp [hd]
    | some l => simp [hd] at h

theorem change_state_no_current_entry_witness :
    ((FiniteStateMachine.init (some "__init__")).has_current_entry = false) ∧
    ((FiniteStateMachine.init (some "__init__")).change_state (fun _ => none) "restored" =
      (FiniteStateMachine.init (some "__init__"), false)) ∧
    ((FiniteStateMachine.init none).has_current_entry = false) ∧
    ((FiniteStateMachine.init none).change_state (fun _ => none) "restored" =
      (FiniteStateMachine.init none, false)) :=
  ⟨by decide,
   change_state_no_current_entry (fun _ => none) (FiniteStateMachine.init (some "__init__"))
     "restored" (by decide),
   by decide,
   change_state_no_current_entry (fun _ => none) (FiniteStateMachine.init none)
     "restored" (by decide)⟩

/-- C7 counterexample: add_state called after the machine has first been
used (used_machine has performed a transition) and with an allowed-target
list naming the undeclared state ghost does not fail at all: it registers
the binding, set_state accepts the new state and change_state then
performs a transition into the undeclared state at runtime without any
error being raised. -/
theorem add_state_after_use_and_undeclared_target_succeeds :
    (used_machine.add_state "c" (some ["ghost"])).transitions =
      [("a", ["b"]), ("b", ["a"]), ("c", ["ghost"])] ∧
    ((used_machine.add_state "c" (some ["ghost"])).set_state "c").isOk = true ∧
    (((used_machine.add_state "c" (some ["ghost"])).set_state "c").toOption.map
      (fun m2 => (m2.change_state (fun _ => none) "ghost").1.current_state)) =
      some (some "ghost") := by
  decide

/-- C7 amended: add_state performs no validation and never fails: for every
machine (used or not) and every argument list (undeclared allowed targets
included) it simply stores the binding and leaves the current and previous
state untouched; undeclared-state validation exists only in set_state and
add_transition, which raise ValueError. -/
theorem add_state_unconditional (m : FiniteStateMachine) (state : String)
    (ts : Option (List String)) :
    dictGet (m.add_state state ts).transitions state = some (ts.getD []) ∧
    (m.add_state state ts).current_state = m.current_state ∧
    (m.add_state state ts).previous_state = m.previous_state ∧
    (∀ name, ((m.set_state name).isOk = true ↔ (dictGet m.transitions name).isSome = true)) := by
  refine ⟨dictGet_dictSet_self m.transitions state (ts.getD []), rfl, rfl, ?_⟩
  intro name
  unfold FiniteStateMachine.set_state
  cases h : (dictGet m.transitions name).isSome <;> simp [h, Except.isOk, Except.toBool]

/-- C8: in the Window machine registered in App.__init__ the allowed
targets of minimized are exactly restored and those of maximized exactly
restored and fullscreen, so the direct transitions minimized to maximized
and maximized to minimized are rejected with the machine unchanged, while
the chain minimized to restored to maximized succeeds. -/
theorem window_min_max_only_via_restored :
    ({ window_fsm_setup with current_state := some "minimized" } :
      FiniteStateMachine).allowed_targets = ["restored"] ∧
    ({ window_fsm_setup with current_state := some "maximized" } :
      FiniteStateMachine).allowed_targets = ["restored", "fullscreen"] ∧
    ({ window_fsm_setup with current_state := some "minimized" } :
      FiniteStateMachine).change_state window_acts "maximized" =
      ({ window_fsm_setup with current_state := some "minimized" }, false) ∧
    ({ window_fsm_setup with current_state := some "maximized" } :
      FiniteStateMachine).change_state window_acts "minimized" =
      ({ window_fsm_setup with current_state := some "maximized" }, false) ∧
    ((({ window_fsm_setup with current_state := some "minimized" } :
      FiniteStateMachine).change_state window_acts "restored").2 = true ∧
     ((({ window_fsm_setup with current_state := some "minimized" } :
      FiniteStateMachine).change_state window_acts "restored").1.change_state
        window_acts "maximized").2 = true ∧
     ((({ window_fsm_setup with current_state := some "minimized" } :
      FiniteStateMachine).change_state window_acts "restored").1.change_state
        window_acts "maximized").1.current_state = some "maximized") := by
  decide

theorem on_alt_keypress_toggle (w p : FiniteStateMachine) (cur : String) (prev : Option String)
    (hw : w.get_state = some "fullscreen") (hp : p.get_state = some "img")
    (hc : cur = "shown" ∨ cur = "hidden") :
    on_alt_keypress ⟨w, p, mk_menu_fsm cur prev⟩ =
      ⟨w, p, mk_menu_fsm (if cur = "shown" then "hidden" else "shown") (some cur)⟩ := by
  rcases hc with h | h <;> subst h <;>
    (simp only [on_alt_keypress, hw, hp]; rfl)

/-- C9: with the window machine in fullscreen and the page machine on the
img page, one Alt keypress flips the menu-status machine between shown and
hidden, two keypresses bring it back to its starting state, and any even
number of keypresses is a no-op on the menu-status state. -/
theorem alt_toggle_even_count_noop (w p : FiniteStateMachine) (cur : String)
    (prev : Option String) (k : Nat)
    (hw : w.get_state = some "fullscreen") (hp : p.get_state = some "img")
    (hc : cur = "shown" ∨ cur = "hidden") :
    ((on_alt_keypress ⟨w, p, mk_menu_fsm cur prev⟩).menu_status_fsm.get_state =
      some (if cur = "shown" then "hidden" else "shown")) ∧
    ((on_alt_keypress (on_alt_keypress ⟨w, p, mk_menu_fsm cur prev⟩)).menu_status_fsm.get_state =
      some cur) ∧
    ((on_alt_keypress^[2 * k] ⟨w, p, mk_menu_fsm cur prev⟩).menu_status_fsm.get_state =
      some cur) := by
  have hdouble : ∀ c q, c = "shown" ∨ c = "hidden" →
      on_alt_keypress (on_alt_keypress ⟨w, p, mk_menu_fsm c q⟩) =
        ⟨w, p, mk_menu_fsm c (some (if c = "shown" then "hidden" else "shown"))⟩ := by
    intro c q hcq
    rcases hcq with h | h <;> subst h <;>
      rw [on_alt_keypress_toggle w p _ q hw hp (by simp),
          on_alt_keypress_toggle w p _ _ hw hp (by simp)] <;> simp
  refine ⟨?_, ?_, ?_⟩
  · rw [on_alt_keypress_toggle w p cur prev hw hp hc]; rfl
  · rw [hdouble cur prev hc]; rfl
  · induction k generalizing prev with
    | zero => rfl
    | succ n ih =>
      have h2 : 2 * (n + 1) = 2 * n + 1 + 1 := by ring
      rw [h2, Function.iterate_succ_apply, Function.iterate_succ_apply,
          hdouble cur prev hc]
      exact ih (some (if cur = "shown" then "hidden" else "shown"))

theorem alt_toggle_even_count_noop_witness :
    (({ window_fsm_setup with current_state := some "fullscreen" } :
        FiniteStateMachine).get_state = some "fullscreen") ∧
    (({ page_fsm_setup with current_state := some "img" } :
        FiniteStateMachine).get_state = some "img") ∧
    ((on_alt_keypress^[2 * 3]
        ⟨{ window_fsm_setup with current_state := some "fullscreen" },
          { page_fsm_setup with current_state := some "img" },
          mk_menu_fsm "shown" none⟩).menu_status_fsm.get_state = some "shown") :=
  ⟨rfl, rfl,
   (alt_toggle_even_count_noop
      { window_fsm_setup with current_state := some "fullscreen" }
      { page_fsm_setup with current_state := some "img" }
      "shown" none 3 rfl rfl (Or.inl rfl)).2.2⟩

theorem dictGet_eq_of_mem {κ α : Type} [DecidableEq κ] :
    ∀ (l : List (κ × α)) (k : κ) (v : α),
      (l.map Prod.fst).Nodup → (k, v) ∈ l → dictGet l k = some v := by
  intro l
  induction l with
  | nil => intro k v _ h; cases h
  | cons e rest ih =>
    intro k v hnd hmem
    obtain ⟨k1, v1⟩ := e
    rcases List.mem_cons.mp hmem with h | h
    · injection h with h1 h2
      subst h1; subst h2
      simp [dictGet]
    · have hk : k ≠ k1 := by
        intro hkk
        subst hkk
        have : k ∈ rest.map Prod.fst := List.mem_map.mpr ⟨(k, v), h, rfl⟩
        exact (List.nodup_cons.mp hnd).1 this
      simpa [dictGet, hk] using ih k v (List.nodup_cons.mp hnd).2 h

theorem key_unique_of_nodup {κ α : Type} :
    ∀ (l : List (κ × α)) (k : κ) (a b : α),
      (l.map Prod.fst).Nodup → (k, a) ∈ l → (k, b) ∈ l → a = b := by
  intro l
  induction l with
  | nil => intro k a b _ h; cases h
  | cons e rest ih =>
    intro k a b hnd ha hb
    obtain ⟨k1, v1⟩ := e
    have hnd' := List.nodup_cons.mp hnd
    rcases List.mem_cons.mp ha with h1 | h1 <;> rcases List.mem_cons.mp hb with h2 | h2
    · injection h1 with e1 e2; injection h2 with e3 e4
      subst e2; subst e4; rfl
    · injection h1 with e1 e2
      subst e1
      exact absurd (List.mem_map.mpr ⟨(k, b), h2, rfl⟩) hnd'.1
    · injection h2 with e1 e2
      subst e1
      exact absurd (List.mem_map.mpr ⟨(k, a), h1, rfl⟩) hnd'.1
    · exact ih k a b hnd'.2 h1 h2

theorem dictGet_map_mark_step (name : String) :
    ∀ (l : List (Nat × DependencyState)) (k : Nat),
      dictGet (l.map (fun e => (e.1, mark_step name e.2))) k =
        (dictGet l k).map (mark_step name) := by
  intro l
  induction l with
  | nil => intro k; rfl
  | cons e rest ih =>
    intro k
    obtain ⟨k1, st1⟩ := e
    by_cases h : k = k1 <;> simp [dictGet, h, ih]

theorem map_fix_of_id {α : Type} (f : α → α) :
    ∀ (l : List α), (∀ a ∈ l, f a = a) → l.map f = l := by
  intro l
  induction l with
  | nil => intro _; rfl
  | cons a rest ih =>
    intro h
    simp only [List.map_cons, h a (List.mem_cons_self a rest),
      ih (fun b hb => h b (List.mem_cons_of_mem a hb))]

theorem mark_complete_noop (dm : DependencyManager) (name : String)
    (h : ∀ e ∈ dm.dependency_states, name ∉ e.2.dependencies) :
    dm.mark_complete name = (dm, []) := by
  unfold DependencyManager.mark_complete
  have h1 : dm.dependency_states.map (fun e => (e.1, mark_step name e.2)) =
      dm.dependency_states := by
    apply map_fix_of_id
    intro e he
    simp [mark_step, h e he]
  have h2 : dm.dependency_states.filter (fun e => mark_fires name e.2) = [] := by
    rw [List.filter_eq_nil_iff]
    intro e he
    simp [mark_fires, h e he]
  rw [h1, h2]
  rfl

theorem mem_fired_iff (dm : DependencyManager) (name : String) (fid : Nat)
    (st : DependencyState)
    (hnd : (dm.dependency_states.map Prod.fst).Nodup)
    (hmem : (fid, st) ∈ dm.dependency_states) :
    fid ∈ (dm.mark_complete name).2 ↔ mark_fires name st = true := by
  unfold DependencyManager.mark_complete
  simp only [List.mem_map, List.mem_filter]
  constructor
  · rintro ⟨e, ⟨hel, hfir⟩, heq⟩
    obtain ⟨k1, st1⟩ := e
    simp only at heq
    have hst : st1 = st :=
      key_unique_of_nodup dm.dependency_states fid st1 st hnd (heq ▸ hel) hmem
    rwa [hst] at hfir
  · intro hf
    exact ⟨(fid, st), ⟨hmem, hf⟩, rfl⟩

theorem run_marks_append :
    ∀ (a b : List String) (dm : DependencyManager),
      dm.run_marks (a ++ b) =
        (((dm.run_marks a).1.run_marks b).1,
         (dm.run_marks a).2 ++ ((dm.run_marks a).1.run_marks b).2) := by
  intro a
  induction a with
  | nil => intro b dm; simp [DependencyManager.run_marks]
  | cons n rest ih =>
    intro b dm
    simp [DependencyManager.run_marks, ih, List.append_assoc]

theorem run_marks_single_cycle (fid : Nat) (D : Finset String) :
    ∀ (L : List String) (C : Finset String), L ≠ [] → L.Nodup →
      (∀ x ∈ L, x ∉ C) → C ∪ L.toFinset = D →
      (DependencyManager.mk [(fid, ⟨D, C⟩)]).run_marks L = (⟨[(fid, ⟨D, ∅⟩)]⟩, [fid]) := by
  intro L
  induction L with
  | nil => intro C hne; exact absurd rfl hne
  | cons x rest ih =>
    intro C _ hnd hnotin hunion
    have hxD : x ∈ D := by
      rw [← hunion]; simp
    by_cases hrest : rest = []
    · subst hrest
      have hfire : D = insert x C := by
        rw [← hunion]
        ext a
        simp [or_comm]
      simp [DependencyManager.run_marks, DependencyManager.mark_complete,
            mark_step, mark_fires, hxD, hfire]
    · obtain ⟨y, hy⟩ := List.exists_mem_of_ne_nil rest hrest
      have hyD : y ∈ D := by
        rw [← hunion]; simp [hy]
      have hynotx : y ≠ x := by
        intro h; subst h; exact (List.nodup_cons.mp hnd).1 hy
      have hnofire : ¬ D = insert x C := by
        intro h
        rw [h] at hyD
        rcases Finset.mem_insert.mp hyD with h1 | h1
        · exact hynotx h1
        · exact hnotin y (List.mem_cons_of_mem x hy) h1
      have step : (DependencyManager.mk [(fid, ⟨D, C⟩)]).mark_complete x =
          (⟨[(fid, ⟨D, insert x C⟩)]⟩, []) := by
        simp [DependencyManager.mark_complete, mark_step, mark_fires, hxD, hnofire]
      have hrec := ih (insert x C) hrest (List.nodup_cons.mp hnd).2
        (by
          intro z hz
          rw [Finset.mem_insert]
          push_neg
          refine ⟨?_, hnotin z (List.mem_cons_of_mem x hz)⟩
          intro h; subst h; exact (List.nodup_cons.mp hnd).1 hz)
        (by
          rw [Finset.insert_union, ← Finset.union_insert, ← List.toFinset_cons]
          exact hunion)
      simp only [DependencyManager.run_marks, step, hrec, List.nil_append]

theorem run_marks_two_cycles (fid : Nat) (D : Finset String) (L : List String)
    (hne : L ≠ []) (hnd : L.Nodup) (hD : D = L.toFinset) :
    (DependencyManager.mk [(fid, ⟨D, ∅⟩)]).run_marks (L ++ L) =
      (⟨[(fid, ⟨D, ∅⟩)]⟩, [fid, fid]) := by
  have hone : (DependencyManager.mk [(fid, ⟨D, ∅⟩)]).run_marks L =
      (⟨[(fid, ⟨D, ∅⟩)]⟩, [fid]) := by
    apply run_marks_single_cycle fid D L ∅ hne hnd (by simp)
    simp [hD]
  rw [run_marks_append]
  simp [hone]

/-- C6: for every registered follow-up whose required set contains the
marked name, mark_complete adds the name to its completed set; the
follow-up is invoked synchronously precisely when its completed set has
become equal to its required set, and its completed set is cleared
immediately after firing; a follow-up whose required set does not contain
the name (and hence a name belonging to no registered follow-up, the
silent no-op clause) is left untouched; and over a full completion cycle
the follow-up fires exactly once, with a fresh full cycle firing it again
(two consecutive full cycles fire it exactly twice). -/
theorem mark_complete_spec (dm : DependencyManager) (name : String)
    (hnd : (dm.dependency_states.map Prod.fst).Nodup) :
    ((∀ e ∈ dm.dependency_states, name ∉ e.2.dependencies) →
      dm.mark_complete name = (dm, [])) ∧
    (∀ fid st, (fid, st) ∈ dm.dependency_states → name ∈ st.dependencies →
      dictGet (dm.mark_complete name).1.dependency_states fid =
        some (if st.dependencies = insert name st.completed
              then ⟨st.dependencies, ∅⟩
              else ⟨st.dependencies, insert name st.completed⟩) ∧
      (fid ∈ (dm.mark_complete name).2 ↔
        st.dependencies = insert name st.completed)) ∧
    (∀ fid st, (fid, st) ∈ dm.dependency_states → name ∉ st.dependencies →
      dictGet (dm.mark_complete name).1.dependency_states fid = some st ∧
      fid ∉ (dm.mark_complete name).2) ∧
    (∀ fid D L, L ≠ [] → L.Nodup → D = L.toFinset →
      (DependencyManager.mk [(fid, ⟨D, ∅⟩)]).run_marks L =
        (⟨[(fid, ⟨D, ∅⟩)]⟩, [fid]) ∧
      (DependencyManager.mk [(fid, ⟨D, ∅⟩)]).run_marks (L ++ L) =
        (⟨[(fid, ⟨D, ∅⟩)]⟩, [fid, fid])) := by
  refine ⟨mark_complete_noop dm name, ?_, ?_, ?_⟩
  · intro fid st hmem hdep
    constructor
    · have h1 : dictGet dm.dependency_states fid = some st :=
        dictGet_eq_of_mem dm.dependency_states fid st hnd hmem
      have h2 := dictGet_map_mark_step name dm.dependency_states fid
      rw [h1] at h2
      unfold DependencyManager.mark_complete
      simp only [h2]
      by_cases hf : st.dependencies = insert name st.completed <;>
        simp [mark_step, hdep, hf]
    · rw [mem_fired_iff dm name fid st hnd hmem]
      simp [mark_fires, hdep]
  · intro fid st hmem hdep
    constructor
    · have h1 : dictGet dm.dependency_states fid = some st :=
        dictGet_eq_of_mem dm.dependency_states fid st hnd hmem
      have h2 := dictGet_map_mark_step name dm.dependency_states fid
      rw [h1] at h2
      unfold DependencyManager.mark_complete
      simp only [h2]
      simp [mark_step, hdep]
    · rw [mem_fired_iff dm name fid st hnd hmem]
      simp [mark_fires, hdep]
  · intro fid D L hne hnd2 hD
    refine ⟨?_, run_marks_two_cycles fid D L hne hnd2 hD⟩
    apply run_marks_single_cycle fid D L ∅ hne hnd2 (by simp)
    simp [hD]

theorem mark_complete_spec_witness :
    ((([(0, (⟨["a", "b"].toFinset, ∅⟩ : DependencyState))] :
        List (Nat × DependencyState)).map Prod.fst).Nodup) ∧
    ((["a", "b"] : List String) ≠ [] ∧ (["a", "b"] : List String).Nodup) ∧
    (DependencyManager.mk [(0, ⟨["a", "b"].toFinset, ∅⟩)]).run_marks
        (["a", "b"] ++ ["a", "b"]) =
      (⟨[(0, ⟨["a", "b"].toFinset, ∅⟩)]⟩, [0, 0]) :=
  ⟨by decide, ⟨by decide, by decide⟩,
   ((mark_complete_spec ⟨[(0, ⟨["a", "b"].toFinset, ∅⟩)]⟩ "a" (by decide)).2.2.2
      0 (["a", "b"].toFinset) ["a", "b"] (by decide) (by decide) rfl).2⟩

/-- C3 counterexample: a concrete run in which the first thunk enqueued on
key k raises.  The exception escapes the queue machinery (Except.error:
nothing catches it inside TaskQueue), the running flag for k is left True
and no settle callback is scheduled; a second, well-behaved thunk then
enqueued on k is appended to the queue but never starts, and no pending
callback exists that could ever clear the flag - the key is permanently
stuck, contradicting the claim that the queue catches the error, treats
the task as completed and keeps the key live. -/
theorem raising_thunk_leaves_key_stuck :
    (TaskQueue.empty.add_task_to_queue (fun t => t == 0) "k" 0 =
      Except.error ⟨[("k", [])], [("k", true)], []⟩) ∧
    (TaskQueue.add_task_to_queue (fun t => t == 0) "k" 1
        ⟨[("k", [])], [("k", true)], []⟩ =
      Except.ok ⟨[("k", [1])], [("k", true)], []⟩) :=
  ⟨rfl, rfl⟩

/-- C3 amended: process_queue wraps the thunk call in no handler, so a
thunk that raises propagates its exception out of the queue: the popped
task is lost, the key's running flag stays set and the settle callback
that would clear it is never scheduled; afterwards every further enqueue
on that key (its queue entry existing) merely appends to the queue
without executing anything or scheduling anything, so the key stays stuck
until finish_task is invoked by some external caller. -/
theorem process_queue_exception_sticks (raises : Nat → Bool) (key : String)
    (s : TaskQueue) (t : Nat) (rest : List Nat)
    (hidle : (dictGet s.running_tasks key).getD false = false)
    (hqueue : (dictGet s.task_queues key).getD [] = t :: rest)
    (hraise : raises t = true) :
    s.process_queue raises key =
      Except.error { s with running_tasks := dictSet s.running_tasks key true,
                            task_queues := dictSet s.task_queues key rest } ∧
    (∀ (s2 : TaskQueue) (task : Nat), (dictGet s2.running_tasks key).getD false = true →
      (dictGet s2.task_queues key).isSome = true →
      s2.add_task_to_queue raises key task =
        Except.ok { s2 with task_queues := (dictSet s2.task_queues key
                      (((dictGet s2.task_queues key).getD []) ++ [task])) }) := by
  constructor
  · unfold TaskQueue.process_queue
    rw [hqueue]
    simp [hidle, hraise]
  · intro s2 task hrun hsome
    unfold TaskQueue.add_task_to_queue
    have hnone : (dictGet s2.task_queues key).isNone = false := by
      cases h : dictGet s2.task_queues key <;> simp_all
    simp only [hnone, Bool.false_eq_true, if_neg, ite_false]
    unfold TaskQueue.process_queue
    simp [hrun]

theorem process_queue_exception_sticks_witness :
    ((dictGet ([("k", false)] : List (String × Bool)) "k").getD false = false) ∧
    ((dictGet ([("k", [5])] : List (String × List Nat)) "k").getD [] = [5]) ∧
    ((fun t => t == 5) 5 = true) ∧
    (TaskQueue.process_queue (fun t => t == 5) "k" ⟨[("k", [5])], [("k", false)], []⟩ =
      Except.error ⟨[("k", [])], [("k", true)], []⟩) :=
  ⟨by decide, by decide, by decide, by
    have h := (process_queue_exception_sticks (fun t => t == 5) "k"
      ⟨[("k", [5])], [("k", false)], []⟩ 5 [] (by decide) (by decide) (by decide)).1
    exact h⟩

theorem getLast_cons_eq_getLastD {α : Type} :
    ∀ (l : List α) (a : α), (a :: l).getLast (by simp) = l.getLastD a := by
  intro l
  induction l with
  | nil => intro a; rfl
  | cons b rest ih =>
    intro a
    rw [List.getLast_cons (by simp), ih b, List.getLastD_cons]

theorem run_burst (delay : Nat) :
    ∀ (evs : List (Nat × Nat)) (t0 k0 : Nat) (mat : List Nat),
      List.Chain (fun e1 e2 => e1.1 < e2.1 ∧ e2.1 < e1.1 + delay) (t0, k0) evs →
      DebounceSim.run delay ⟨t0, some (t0 + delay, k0), mat⟩ evs =
        ⟨(evs.getLastD (t0, k0)).1,
         some ((evs.getLastD (t0, k0)).1 + delay, (evs.getLastD (t0, k0)).2),
         mat⟩ := by
  intro evs
  induction evs with
  | nil => intro t0 k0 mat _; rfl
  | cons e rest ih =>
    intro t0 k0 mat hch
    obtain ⟨t1, k1⟩ := e
    obtain ⟨⟨hlt, hle⟩, hch'⟩ := List.chain_cons.mp hch
    have hnofire : ¬ (t0 + delay ≤ t1) := Nat.not_le.mpr hle
    have hstep : DebounceSim.step delay ⟨t0, some (t0 + delay, k0), mat⟩ (t1, k1) =
        ⟨t1, some (t1 + delay, k1), mat⟩ := by
      simp [DebounceSim.step, DebounceSim.fire_due, DebounceSim.enqueue_debounced, hnofire]
    show DebounceSim.run delay _ ((t1, k1) :: rest) = _
    unfold DebounceSim.run
    rw [List.foldl_cons]
    rw [show List.foldl (DebounceSim.step delay)
          (DebounceSim.step delay ⟨t0, some (t0 + delay, k0), mat⟩ (t1, k1)) rest =
        DebounceSim.run delay
          (DebounceSim.step delay ⟨t0, some (t0 + delay, k0), mat⟩ (t1, k1)) rest from rfl]
    rw [hstep, ih t1 k1 mat hch', List.getLastD_cons]

theorem run_sparse (delay : Nat) :
    ∀ (evs : List (Nat × Nat)) (t0 k0 : Nat) (mat : List Nat),
      List.Chain (fun e1 e2 => e1.1 + delay < e2.1) (t0, k0) evs →
      DebounceSim.run delay ⟨t0, some (t0 + delay, k0), mat⟩ evs =
        ⟨(evs.getLastD (t0, k0)).1,
         some ((evs.getLastD (t0, k0)).1 + delay, (evs.getLastD (t0, k0)).2),
         mat ++ (((t0, k0) :: evs).dropLast).map Prod.snd⟩ := by
  intro evs
  induction evs with
  | nil => intro t0 k0 mat _; simp [DebounceSim.run]
  | cons e rest ih =>
    intro t0 k0 mat hch
    obtain ⟨t1, k1⟩ := e
    obtain ⟨hgap, hch'⟩ := List.chain_cons.mp hch
    have hfire : t0 + delay ≤ t1 := Nat.le_of_lt hgap
    have hstep : DebounceSim.step delay ⟨t0, some (t0 + delay, k0), mat⟩ (t1, k1) =
        ⟨t1, some (t1 + delay, k1), mat ++ [k0]⟩ := by
      simp [DebounceSim.step, DebounceSim.fire_due, DebounceSim.enqueue_debounced, hfire]
    show DebounceSim.run delay _ ((t1, k1) :: rest) = _
    unfold DebounceSim.run
    rw [List.foldl_cons]
    rw [show List.foldl (DebounceSim.step delay)
          (DebounceSim.step delay ⟨t0, some (t0 + delay, k0), mat⟩ (t1, k1)) rest =
        DebounceSim.run delay
          (DebounceSim.step delay ⟨t0, some (t0 + delay, k0), mat⟩ (t1, k1)) rest from rfl]
    rw [hstep, ih t1 k1 (mat ++ [k0]) hch', List.getLastD_cons]
    have hdl : ((t0, k0) :: (t1, k1) :: rest).dropLast =
        (t0, k0) :: ((t1, k1) :: rest).dropLast := rfl
    simp [hdl]

/-- C4: for one key, debounced enqueues each arriving within less than the
debounce delay of their predecessor cancel the earlier not-yet-fired timer
and schedule a fresh one, so exactly one task materializes in the queue,
the one of the last call; enqueues spaced farther apart than the delay all
materialize, N calls yielding the N tasks in order. -/
theorem debounce_burst_one_sparse_all (delay : Nat) (evs : List (Nat × Nat))
    (hne : evs ≠ []) :
    (List.Chain' (fun e1 e2 => e1.1 < e2.1 ∧ e2.1 < e1.1 + delay) evs →
      ((DebounceSim.run delay DebounceSim.origin evs).flush).materialized =
        [(evs.getLast hne).2]) ∧
    (List.Chain' (fun e1 e2 => e1.1 + delay < e2.1) evs →
      ((DebounceSim.run delay DebounceSim.origin evs).flush).materialized =
        evs.map Prod.snd) := by
  obtain ⟨e0, rest, rfl⟩ := List.exists_cons_of_ne_nil hne
  obtain ⟨t0, k0⟩ := e0
  have hrun0 : DebounceSim.run delay DebounceSim.origin ((t0, k0) :: rest) =
      DebounceSim.run delay ⟨t0, some (t0 + delay, k0), []⟩ rest := by
    unfold DebounceSim.run
    rw [List.foldl_cons]
    rfl
  have hlast : ((t0, k0) :: rest).getLast hne = rest.getLastD (t0, k0) :=
    getLast_cons_eq_getLastD rest (t0, k0)
  constructor
  · intro hch
    have hch2 : List.Chain (fun e1 e2 => e1.1 < e2.1 ∧ e2.1 < e1.1 + delay)
        (t0, k0) rest := hch
    rw [hrun0, run_burst delay rest t0 k0 [] hch2, hlast]
    simp [DebounceSim.flush]
  · intro hch
    have hch2 : List.Chain (fun e1 e2 => e1.1 + delay < e2.1) (t0, k0) rest := hch
    rw [hrun0, run_sparse delay rest t0 k0 [] hch2]
    simp only [DebounceSim.flush, List.nil_append]
    rw [show [(rest.getLastD (t0, k0)).2] =
          [((t0, k0) :: rest).getLast hne].map Prod.snd by rw [hlast]; rfl]
    rw [← List.map_append, List.dropLast_append_getLast]

theorem debounce_burst_one_sparse_all_witness :
    (([((0 : Nat), (10 : Nat)), (10, 11), (20, 12)] : List (Nat × Nat)) ≠ []) ∧
    (List.Chain' (fun e1 e2 => e1.1 < e2.1 ∧ e2.1 < e1.1 + 100)
      [((0 : Nat), (10 : Nat)), (10, 11), (20, 12)]) ∧
    (((DebounceSim.run 100 DebounceSim.origin
        [((0 : Nat), (10 : Nat)), (10, 11), (20, 12)]).flush).materialized =
      [([((0 : Nat), (10 : Nat)), (10, 11), (20, 12)].getLast (by decide)).2]) ∧
    (((DebounceSim.run 100 DebounceSim.origin
        [((0 : Nat), (10 : Nat)), (200, 11)]).flush).materialized = [(10 : Nat), 11]) :=
  ⟨by decide,
   by exact List.Chain.cons (by decide) (List.Chain.cons (by decide) List.Chain.nil),
   (debounce_burst_one_sparse_all 100 [(0, 10), (10, 11), (20, 12)] (by decide)).1
     (by exact List.Chain.cons (by decide) (List.Chain.cons (by decide) List.Chain.nil)),
   (debounce_burst_one_sparse_all 100 [(0, 10), (200, 11)] (by decide)).2
     (by exact List.Chain.cons (by decide) List.Chain.nil)⟩

theorem process_queue_spec (dur : Nat → Nat) (t : Nat) (s : SerialSim)
    (hrun : s.running = false) (hfin : s.finish_at = none)
    (hsp : List.Chain' (fun a b => a.1 + dur a.2 + 10 ≤ b.1) s.starts)
    (hnow : ∀ e, s.starts.getLast? = some e → e.1 + dur e.2 + 10 ≤ t)
    (hteq : s.now = t) :
    SimInv dur (SerialSim.process_queue dur t s) ∧
    (SerialSim.process_queue dur t s).starts.map Prod.snd ++
        (SerialSim.process_queue dur t s).queue =
      s.starts.map Prod.snd ++ s.queue ∧
    ((s.queue = [] ∧ SerialSim.process_queue dur t s = s) ∨
     (∃ h rest, s.queue = h :: rest ∧
        (SerialSim.process_queue dur t s).queue = rest)) := by
  cases hq : s.queue with
  | nil =>
    have hres : SerialSim.process_queue dur t s = s := by
      unfold SerialSim.process_queue
      rw [hrun, hq]
      rfl
    rw [hres]
    refine ⟨⟨?_, hsp, ?_, ?_, ?_⟩, by rw [hq], Or.inl ⟨rfl, rfl⟩⟩
    · rw [hrun, hfin]; rfl
    · intro f hf; rw [hfin] at hf; cases hf
    · intro _ e he
      rw [hteq]
      exact hnow e he
    · intro _; exact hq
  | cons h rest =>
    have hres : SerialSim.process_queue dur t s =
        { s with queue := rest, running := true, now := t + dur h,
                 finish_at := some (t + dur h + 10),
                 starts := s.starts ++ [(t, h)] } := by
      unfold SerialSim.process_queue
      rw [hrun, hq]
      rfl
    rw [hres]
    refine ⟨⟨rfl, ?_, ?_, ?_, ?_⟩, ?_, Or.inr ⟨h, rest, rfl, rfl⟩⟩
    · rw [List.chain'_append]
      refine ⟨hsp, List.chain'_singleton _, ?_⟩
      intro x hx y hy
      simp only [List.head?_cons, Option.mem_def, Option.some.injEq] at hy
      subst hy
      exact hnow x (Option.mem_def.mp hx)
    · intro f hf
      refine ⟨(t, h), ?_, ?_⟩
      · exact List.getLast?_concat _
      · injection hf with hf2; exact hf2.symm
    · intro hcontra; cases hcontra
    · intro hcontra; cases hcontra
    · simp [hq]

theorem fire_finishes_spec (dur : Nat → Nat) :
    ∀ (fuel t : Nat) (s : SerialSim), SimInv dur s →
      SimInv dur (SerialSim.fire_finishes dur fuel t s) ∧
      (SerialSim.fire_finishes dur fuel t s).starts.map Prod.snd ++
          (SerialSim.fire_finishes dur fuel t s).queue =
        s.starts.map Prod.snd ++ s.queue := by
  intro fuel
  induction fuel with
  | zero => intro t s h; exact ⟨h, rfl⟩
  | succ n ih =>
    intro t s h
    cases hf : s.finish_at with
    | none =>
      have hres : SerialSim.fire_finishes dur (n + 1) t s = s := by
        unfold SerialSim.fire_finishes
        rw [hf]
      rw [hres]
      exact ⟨h, rfl⟩
    | some f =>
      by_cases hle : f ≤ t
      · have hres : SerialSim.fire_finishes dur (n + 1) t s =
            SerialSim.fire_finishes dur n t
              (SerialSim.process_queue dur f
                { s with now := f, running := false, finish_at := none,
                         fins := s.fins ++ [f] }) := by
          conv_lhs => rw [SerialSim.fire_finishes]
          rw [hf]
          exact if_pos hle
        obtain ⟨e, helast, hkeq⟩ := h.fin_last f hf
        have hps := process_queue_spec dur f
          { s with now := f, running := false, finish_at := none, fins := s.fins ++ [f] }
          rfl rfl h.spaced
          (by
            intro e2 he2
            have he2' : s.starts.getLast? = some e2 := he2
            rw [helast] at he2'
            injection he2' with he3
            rw [he3] at hkeq
            exact Nat.le_of_eq hkeq.symm)
          rfl
        obtain ⟨hI2, htr2, _⟩ := hps
        obtain ⟨hI3, htr3⟩ := ih t _ hI2
        rw [hres]
        exact ⟨hI3, by rw [htr3, htr2]⟩
      · have hres : SerialSim.fire_finishes dur (n + 1) t s = s := by
          conv_lhs => rw [SerialSim.fire_finishes]
          rw [hf]
          exact if_neg hle
        rw [hres]
        exact ⟨h, rfl⟩

theorem add_task_spec (dur : Nat → Nat) (t task : Nat) (s : SerialSim)
    (h : SimInv dur s) :
    SimInv dur (s.add_task dur t task) ∧
    (s.add_task dur t task).starts.map Prod.snd ++ (s.add_task dur t task).queue =
      s.starts.map Prod.snd ++ s.queue ++ [task] := by
  obtain ⟨h0, htr0⟩ := fire_finishes_spec dur (s.queue.length + 1) t s h
  set s0 := SerialSim.fire_finishes dur (s.queue.length + 1) t s with hs0
  have hdef : s.add_task dur t task =
      SerialSim.process_queue dur (max s0.now t)
        { s0 with now := max s0.now t, queue := s0.queue ++ [task] } := rfl
  rw [hdef]
  by_cases hb : s0.running = true
  · have hres : SerialSim.process_queue dur (max s0.now t)
        { s0 with now := max s0.now t, queue := s0.queue ++ [task] } =
        { s0 with now := max s0.now t, queue := s0.queue ++ [task] } := by
      unfold SerialSim.process_queue
      exact if_pos hb
    rw [hres]
    refine ⟨⟨h0.run_iff, h0.spaced, h0.fin_last, ?_, ?_⟩, ?_⟩
    · intro hn
      have hio := h0.run_iff
      have hn2 : s0.finish_at = none := hn
      rw [hn2, hb] at hio
      exact absurd hio (by simp)
    · intro hc
      have hc2 : s0.running = false := hc
      rw [hb] at hc2
      exact absurd hc2 (by simp)
    · show s0.starts.map Prod.snd ++ (s0.queue ++ [task]) = _
      rw [← List.append_assoc, htr0]
  · have hrf : s0.running = false := by
      cases hx : s0.running
      · rfl
      · exact absurd hx hb
    have hfin0 : s0.finish_at = none := by
      have hio := h0.run_iff
      rw [hrf] at hio
      cases hx : s0.finish_at
      · rfl
      · rw [hx] at hio
        exact absurd hio.symm (by simp)
    have hps := process_queue_spec dur (max s0.now t)
      { s0 with now := max s0.now t, queue := s0.queue ++ [task] }
      hrf hfin0 h0.spaced
      (by
        intro e he
        have hle := h0.idle_now hfin0 e he
        exact Nat.le_trans hle (Nat.le_max_left _ _))
      rfl
    obtain ⟨hI, htr, _⟩ := hps
    refine ⟨hI, ?_⟩
    rw [htr]
    show s0.starts.map Prod.snd ++ (s0.queue ++ [task]) = _
    rw [← List.append_assoc, htr0]

theorem run_adds_spec (dur : Nat → Nat) :
    ∀ (evs : List (Nat × Nat)) (s : SerialSim), SimInv dur s →
      SimInv dur (SerialSim.run_adds dur s evs) ∧
      (SerialSim.run_adds dur s evs).starts.map Prod.snd ++
          (SerialSim.run_adds dur s evs).queue =
        s.starts.map Prod.snd ++ s.queue ++ evs.map Prod.snd := by
  intro evs
  induction evs with
  | nil => intro s h; exact ⟨h, by simp [SerialSim.run_adds]⟩
  | cons e rest ih =>
    intro s h
    obtain ⟨h1, htr1⟩ := add_task_spec dur e.1 e.2 s h
    have hstep : SerialSim.run_adds dur s (e :: rest) =
        SerialSim.run_adds dur (s.add_task dur e.1 e.2) rest := rfl
    rw [hstep]
    obtain ⟨h2, htr2⟩ := ih (s.add_task dur e.1 e.2) h1
    refine ⟨h2, ?_⟩
    rw [htr2, htr1]
    simp [List.append_assoc]

theorem drain_none (dur : Nat → Nat) (fuel : Nat) (s : SerialSim)
    (h : s.finish_at = none) : SerialSim.drain dur fuel s = s := by
  cases fuel with
  | zero => rfl
  | succ n =>
    conv_lhs => rw [SerialSim.drain]
    rw [h]

theorem drain_spec (dur : Nat → Nat) :
    ∀ (fuel : Nat) (s : SerialSim), SimInv dur s → s.queue.length + 1 ≤ fuel →
      SimInv dur (SerialSim.drain dur fuel s) ∧
      (SerialSim.drain dur fuel s).starts.map Prod.snd ++
          (SerialSim.drain dur fuel s).queue =
        s.starts.map Prod.snd ++ s.queue ∧
      (SerialSim.drain dur fuel s).queue = [] ∧
      (SerialSim.drain dur fuel s).running = false ∧
      (SerialSim.drain dur fuel s).finish_at = none := by
  intro fuel
  induction fuel with
  | zero => intro s h hq; exact absurd hq (by omega)
  | succ n ih =>
    intro s h hfuel
    cases hf : s.finish_at with
    | none =>
      rw [drain_none dur (n + 1) s hf]
      have hrun : s.running = false := by
        have hio := h.run_iff
        rw [hf] at hio
        simpa using hio
      exact ⟨h, rfl, h.idle_queue hrun, hrun, hf⟩
    | some f =>
      have hres : SerialSim.drain dur (n + 1) s =
          SerialSim.drain dur n (SerialSim.process_queue dur f
            { s with now := f, running := false, finish_at := none,
                     fins := s.fins ++ [f] }) := by
        conv_lhs => rw [SerialSim.drain]
        rw [hf]
      obtain ⟨e, helast, hkeq⟩ := h.fin_last f hf
      have hps := process_queue_spec dur f
        { s with now := f, running := false, finish_at := none, fins := s.fins ++ [f] }
        rfl rfl h.spaced
        (by
          intro e2 he2
          have he2' : s.starts.getLast? = some e2 := he2
          rw [helast] at he2'
          injection he2' with he3
          rw [he3] at hkeq
          exact Nat.le_of_eq hkeq.symm)
        rfl
      obtain ⟨hI2, htr2, hcase⟩ := hps
      rw [hres]
      rcases hcase with ⟨hq0, heq⟩ | ⟨hd, rest, hqeq, hq2⟩
      · rw [heq]
        rw [drain_none dur n _ rfl]
        have hI1 : SimInv dur
            { s with now := f, running := false, finish_at := none,
                     fins := s.fins ++ [f] } := heq ▸ hI2
        have hq1 : s.queue = [] := hq0
        refine ⟨hI1, rfl, hq1, rfl, rfl⟩
      · have hlen : s.queue.length = rest.length + 1 := by
          have hqeq2 : s.queue = hd :: rest := hqeq
          rw [hqeq2]
          simp
        obtain ⟨hI3, htr3, hq3, hr3, hf3⟩ := ih
          (SerialSim.process_queue dur f
            { s with now := f, running := false, finish_at := none,
                     fins := s.fins ++ [f] }) hI2
          (by
            have hq2' : (SerialSim.process_queue dur f
              { s with now := f, running := false, finish_at := none,
                       fins := s.fins ++ [f] }).queue = rest := hq2
            rw [hq2']
            omega)
        refine ⟨hI3, ?_, hq3, hr3, hf3⟩
        rw [htr3, htr2]

/-- C5: for one key the queue is strictly serial: over any trace of
enqueue events, once the loop goes quiescent every enqueued task has been
started exactly once and in enqueue order (the log of started tasks
equals the list of enqueued tasks); consecutive starts are separated by at
least the earlier task's duration plus the 10 ms settle delay, so a
second task never starts before the first returns and the settle delay
elapses and at most one task is ever executing; the running flag is set
while a task or its settle wait is outstanding and cleared by finish_task
before the next entry is attempted; and the trace ends idle, with the
flag clear, the queue empty and no callback outstanding. -/
theorem serial_queue_fifo_and_settle (dur : Nat → Nat) (evs : List (Nat × Nat)) :
    (SerialSim.run_trace dur evs).starts.map Prod.snd = evs.map Prod.snd ∧
    List.Chain' (fun a b => a.1 + dur a.2 + 10 ≤ b.1)
      (SerialSim.run_trace dur evs).starts ∧
    (SerialSim.run_trace dur evs).running = false ∧
    (SerialSim.run_trace dur evs).queue = [] ∧
    (SerialSim.run_trace dur evs).finish_at = none := by
  have hinit : SimInv dur SerialSim.initState := by
    refine ⟨rfl, trivial, ?_, ?_, ?_⟩
    · intro f hf; cases hf
    · intro _ e he; cases he
    · intro _; rfl
  obtain ⟨hI, htr⟩ := run_adds_spec dur evs SerialSim.initState hinit
  obtain ⟨hI2, htr2, hq2, hr2, hf2⟩ := drain_spec dur
    ((SerialSim.run_adds dur SerialSim.initState evs).queue.length + 1)
    (SerialSim.run_adds dur SerialSim.initState evs) hI (Nat.le_refl _)
  refine ⟨?_, hI2.spaced, hr2, hq2, hf2⟩
  have hm := htr2
  rw [hq2, List.append_nil] at hm
  have hgoal : (SerialSim.run_trace dur evs).starts.map Prod.snd =
      SerialSim.initState.starts.map Prod.snd ++ SerialSim.initState.queue ++
        evs.map Prod.snd := by
    rw [show (SerialSim.run_trace dur evs).starts.map Prod.snd =
          (SerialSim.drain dur
            ((SerialSim.run_adds dur SerialSim.initState evs).queue.length + 1)
            (SerialSim.run_adds dur SerialSim.initState evs)).starts.map Prod.snd
        from rfl]
    rw [hm, htr]
  rw [hgoal]
  simp [SerialSim.initState]
